import Mathlib

/-!
Verification of the search core of the Calculation solitaire player
(`calculation.py`, with `calculation-refactor.py` as a partial rewrite).

The board model, move primitives, heuristic evaluator and the two solvers
are embedded as executable Lean definitions translated line by line from
`calculation.py` (the complete implementation; the refactor stubs the
evaluator).  Cards are naturals in `[0, cardsPerSuit)`, `0` is the King.
Python's unbounded ints are `Nat`/`Int`; true division is `ℚ`.
-/

namespace Calculation

/-- A board, as in `CalculationBoard.__init__`: eight piles (indices 0-3 the
foundations, 4-7 the waste heaps), the index `last_used` of the last card
drawn from the shared deck, the move counter, the move log and the count of
Kings drawn so far.  Boards do not hold the deck; the deck is shared. -/
structure Board where
  cardsPerSuit : Nat
  piles : Fin 8 → List Nat
  lastUsed : Nat
  nMoves : Nat
  moves : List (Nat × Nat)
  kingsSeen : Nat
deriving DecidableEq

/-- Source `CalculationBoard.is_foundation`. -/
def isFoundation (i : Fin 8) : Bool := decide (i.val < 4)

/-- Source `CalculationBoard.is_waste`. -/
def isWaste (i : Fin 8) : Bool := decide (3 < i.val)

/-- Source `CalculationBoard.nth_card`: the n-th card of a foundation with the
given base, `(base + base*n) % cards_per_suit`. -/
def nthCard (cardsPerSuit base n : Nat) : Nat :=
  (base + base * n) % cardsPerSuit

/-- Source `CalculationBoard.next_card`: next required card of a foundation pile,
computed from its bottom card (`pile[0]`) and its length. -/
def Board.nextCard (b : Board) (i : Fin 8) : Nat :=
  nthCard b.cardsPerSuit ((b.piles i).headI) ((b.piles i).length)

/-- Source `CalculationBoard.valid_set`: placing a card is always allowed on a
waste pile; on a foundation it needs the pile below `cards_per_suit` cards
and the card to be the next required one. -/
def Board.validSet (b : Board) (card : Nat) (dest : Fin 8) : Bool :=
  if isWaste dest then true
  else decide ((b.piles dest).length < b.cardsPerSuit) && decide (card = b.nextCard dest)

/-- Source `CalculationBoard.valid_move`: a move goes from a waste pile to a
foundation, carrying the waste pile's top card (`piles[src][-1]`). -/
def Board.validMove (b : Board) (src dest : Fin 8) : Bool :=
  isWaste src && isFoundation dest && b.validSet ((b.piles src).getLastD 0) dest

/-- Source `CalculationBoard.deck_i`, the pseudo pile index of the deck. -/
def deckIdx : Nat := 8

/-- Source `CalculationBoard.k_pile`, the waste pile reserved for Kings. -/
def kPile : Fin 8 := ⟨4, by omega⟩

/-- Source `CalculationBoard.play_drawn`: a fresh board with the drawn card
appended to `dest`, the deck cursor and move counter advanced, the move
`(deck_i, dest)` logged, and `kings_seen` bumped when the card is a King. -/
def Board.playDrawn (b : Board) (card : Nat) (dest : Fin 8) : Board :=
  { b with
    piles := Function.update b.piles dest (b.piles dest ++ [card])
    lastUsed := b.lastUsed + 1
    nMoves := b.nMoves + 1
    moves := b.moves ++ [(deckIdx, dest.val)]
    kingsSeen := if card = 0 then b.kingsSeen + 1 else b.kingsSeen }

/-- Source `CalculationBoard.move_card`: a fresh board with the top card popped
from `src` and appended to `dest`, the move logged. -/
def Board.moveCard (b : Board) (src dest : Fin 8) : Board :=
  let card := (b.piles src).getLastD 0
  let p1 := Function.update b.piles src ((b.piles src).dropLast)
  { b with
    piles := Function.update p1 dest (p1 dest ++ [card])
    nMoves := b.nMoves + 1
    moves := b.moves ++ [(src.val, dest.val)] }

/-- The initial board: foundations seeded `[1] [2] [3] [4]`, empty wastes,
`last_used = 3` (the four base cards head the deck and count as drawn). -/
def initialBoard (cardsPerSuit : Nat) : Board :=
  { cardsPerSuit := cardsPerSuit
    piles := fun i => if i.val < 4 then [i.val + 1] else []
    lastUsed := 3
    nMoves := 0
    moves := []
    kingsSeen := 0 }

/-- Source `Calculation.values = list(range(1, cards_per_suit)) + [0]`. -/
def values (cardsPerSuit : Nat) : List Nat :=
  List.range' 1 (cardsPerSuit - 1) ++ [0]

/-- Source `Calculation.winning`: the four target foundation piles,
`[[(base*i) % cards_per_suit for i in values] for base in range(1,5)]`. -/
def winning (cardsPerSuit : Nat) : List (List Nat) :=
  (List.range' 1 4).map fun base => (values cardsPerSuit).map fun i => base * i % cardsPerSuit

/-- The four foundation piles, `board.piles[:4]`. -/
def foundationsList (b : Board) : List (List Nat) :=
  [b.piles 0, b.piles 1, b.piles 2, b.piles 3]

/-- The four waste piles, `board.piles[4:]`. -/
def wastesList (b : Board) : List (List Nat) :=
  [b.piles 4, b.piles 5, b.piles 6, b.piles 7]

/-- All eight piles. -/
def pilesList (b : Board) : List (List Nat) :=
  [b.piles 0, b.piles 1, b.piles 2, b.piles 3, b.piles 4, b.piles 5, b.piles 6, b.piles 7]

/-- Source `Calculation.is_winning`: `board.piles[:4] == self.winning` (the game and
the board share `cards_per_suit`). -/
def isWinning (b : Board) : Bool :=
  decide (foundationsList b = winning b.cardsPerSuit)

/-- The modular target pile of claim C1: `[(base + base*k) mod cards_per_suit
for k in 0..cards_per_suit)`. -/
def targetPile (cardsPerSuit base : Nat) : List Nat :=
  (List.range cardsPerSuit).map fun k => (base + base * k) % cardsPerSuit

theorem targetPile_length (c base : Nat) : (targetPile c base).length = c := by
  simp [targetPile]

theorem winning_row_eq_targetPile {c : Nat} (hc : 1 ≤ c) (base : Nat) :
    (values c).map (fun i => base * i % c) = targetPile c base := by
  have h1 : targetPile c base = (List.range c).map fun k => base * (k + 1) % c := by
    unfold targetPile
    refine List.map_congr_left fun k _ => ?_
    ring_nf
  have h2 : (List.range c).map (fun k => base * (k + 1) % c)
      = (List.range' 1 c).map fun j => base * j % c := by
    rw [List.range'_eq_map_range]
    rw [List.map_map]
    refine List.map_congr_left fun k _ => ?_
    simp [Nat.add_comm]
  have h3 : List.range' 1 c = List.range' 1 (c - 1) ++ [c] := by
    obtain ⟨d, rfl⟩ : ∃ d, c = d + 1 := ⟨c - 1, by omega⟩
    have hd : 1 + 1 * d = d + 1 := by omega
    rw [List.range'_concat, hd]
    simp
  rw [h1, h2, h3]
  unfold values
  simp [Nat.mul_mod_right]

theorem winning_eq (c : Nat) :
    winning c = [(values c).map (fun i => 1 * i % c), (values c).map (fun i => 2 * i % c),
      (values c).map (fun i => 3 * i % c), (values c).map fun i => 4 * i % c] := by
  rfl

/-- Claim C1: for every board (with a positive `cards_per_suit`, as Python's
modulus by zero would stop the game's construction otherwise), the winning
check returns true iff each of the four foundation piles `i` (base card `i`,
for `i` in 1..4) has length exactly `cards_per_suit` and equals the
precomputed modular target sequence
`[(i + i*k) mod cards_per_suit for k in 0..cards_per_suit)`. -/
theorem c1_isWinning_iff (b : Board) (hc : 1 ≤ b.cardsPerSuit) :
    isWinning b = true ↔
      (((b.piles 0).length = b.cardsPerSuit ∧ b.piles 0 = targetPile b.cardsPerSuit 1) ∧
       ((b.piles 1).length = b.cardsPerSuit ∧ b.piles 1 = targetPile b.cardsPerSuit 2) ∧
       ((b.piles 2).length = b.cardsPerSuit ∧ b.piles 2 = targetPile b.cardsPerSuit 3) ∧
       ((b.piles 3).length = b.cardsPerSuit ∧ b.piles 3 = targetPile b.cardsPerSuit 4)) := by
  have hrow : ∀ base, (values b.cardsPerSuit).map (fun i => base * i % b.cardsPerSuit)
      = targetPile b.cardsPerSuit base := winning_row_eq_targetPile hc
  have hwin : winning b.cardsPerSuit
      = [targetPile b.cardsPerSuit 1, targetPile b.cardsPerSuit 2,
         targetPile b.cardsPerSuit 3, targetPile b.cardsPerSuit 4] := by
    rw [winning_eq, hrow 1, hrow 2, hrow 3, hrow 4]
  constructor
  · intro hw
    have hfw : foundationsList b = winning b.cardsPerSuit := by
      simpa [isWinning] using hw
    rw [hwin] at hfw
    simp only [foundationsList, List.cons.injEq, and_true] at hfw
    obtain ⟨h0, h1, h2, h3⟩ := hfw
    exact ⟨⟨by rw [h0]; exact targetPile_length _ _, h0⟩,
      ⟨by rw [h1]; exact targetPile_length _ _, h1⟩,
      ⟨by rw [h2]; exact targetPile_length _ _, h2⟩,
      ⟨by rw [h3]; exact targetPile_length _ _, h3⟩⟩
  · rintro ⟨⟨-, h0⟩, ⟨-, h1⟩, ⟨-, h2⟩, ⟨-, h3⟩⟩
    simp only [isWinning, hwin, decide_eq_true_eq, foundationsList]
    rw [h0, h1, h2, h3]

theorem c1_isWinning_iff_witness :
    (1 ≤ (initialBoard 5).cardsPerSuit) ∧
      (isWinning (initialBoard 5) = true ↔
        ((((initialBoard 5).piles 0).length = (initialBoard 5).cardsPerSuit ∧
            (initialBoard 5).piles 0 = targetPile (initialBoard 5).cardsPerSuit 1) ∧
         (((initialBoard 5).piles 1).length = (initialBoard 5).cardsPerSuit ∧
            (initialBoard 5).piles 1 = targetPile (initialBoard 5).cardsPerSuit 2) ∧
         (((initialBoard 5).piles 2).length = (initialBoard 5).cardsPerSuit ∧
            (initialBoard 5).piles 2 = targetPile (initialBoard 5).cardsPerSuit 3) ∧
         (((initialBoard 5).piles 3).length = (initialBoard 5).cardsPerSuit ∧
            (initialBoard 5).piles 3 = targetPile (initialBoard 5).cardsPerSuit 4))) :=
  ⟨by decide, c1_isWinning_iff (initialBoard 5) (by decide)⟩

/-- Claim C2: a card may be placed on foundation `f` — whether directly from
the deck (`valid_set`) or from the top of a waste pile `w` (`valid_move`) —
iff the foundation is not complete (`len < cards_per_suit`) and the card is
`(base_f + base_f*len(f)) mod cards_per_suit`; a completed foundation
accepts no further card and the rule wraps through 0 by the modulus. -/
theorem c2_foundation_rule (b : Board) (card : Nat) (f w : Fin 8)
    (hf : f.val < 4) (hw : 4 ≤ w.val) :
    (b.validSet card f = true ↔
      ((b.piles f).length < b.cardsPerSuit ∧
        card = ((b.piles f).headI + (b.piles f).headI * (b.piles f).length) % b.cardsPerSuit)) ∧
    (b.validMove w f = true ↔
      ((b.piles f).length < b.cardsPerSuit ∧
        (b.piles w).getLastD 0
          = ((b.piles f).headI + (b.piles f).headI * (b.piles f).length) % b.cardsPerSuit)) := by
  have hfw : isWaste f = false := by
    simp [isWaste]; omega
  have hff : isFoundation f = true := by
    simp [isFoundation]; omega
  have hww : isWaste w = true := by
    simp [isWaste]; omega
  constructor
  · simp [Board.validSet, hfw, Board.nextCard, nthCard]
  · simp [Board.validMove, hww, hff, Board.validSet, hfw, Board.nextCard, nthCard]

theorem c2_foundation_rule_witness :
    ((0 : Fin 8).val < 4 ∧ 4 ≤ (4 : Fin 8).val) ∧
    (((initialBoard 5).validSet 2 0 = true ↔
      (((initialBoard 5).piles 0).length < (initialBoard 5).cardsPerSuit ∧
        2 = (((initialBoard 5).piles 0).headI
          + ((initialBoard 5).piles 0).headI * ((initialBoard 5).piles 0).length)
            % (initialBoard 5).cardsPerSuit)) ∧
    ((initialBoard 5).validMove 4 0 = true ↔
      (((initialBoard 5).piles 0).length < (initialBoard 5).cardsPerSuit ∧
        ((initialBoard 5).piles 4).getLastD 0
          = (((initialBoard 5).piles 0).headI
          + ((initialBoard 5).piles 0).headI * ((initialBoard 5).piles 0).length)
            % (initialBoard 5).cardsPerSuit))) :=
  ⟨⟨by decide, by decide⟩, c2_foundation_rule (initialBoard 5) 2 0 4 (by decide) (by decide)⟩

/-- The inner minimum of `CalculationBoard.buried_cost`: the distance
`len(waste) - waste.index(card)` (Python's `index` returns the lowest index,
so the distance is measured to the bottom-most occurrence), minimized across
the waste piles that contain the card, `none` when no pile does. -/
def minDist (card : Nat) (ws : List (List Nat)) : Option Nat :=
  ws.foldl (fun acc w =>
    if card ∈ w then
      match acc with
      | none => some (w.length - w.indexOf card)
      | some d => some (min d (w.length - w.indexOf card))
    else acc) none

/-- The `for i in range(4)` loop of `CalculationBoard.buried_cost` for one
foundation: `fuel` counts the remaining iterations (4 at entry), `next` is
the walked required card and `i` the lookahead index; the loop breaks when
the walk returns to the base card. -/
def buriedGo (c base flen : Nat) (ws : List (List Nat)) : Nat → Nat → Nat → Int
  | 0, _, _ => 0
  | fuel + 1, next, i =>
    if next = base then 0
    else
      (match minDist next ws with
        | none => 0
        | some d => (d : Int) * ((c : Int) - (flen : Int) - (i : Int))) +
      buriedGo c base flen ws fuel ((next + base) % c) (i + 1)

/-- One foundation's share of `CalculationBoard.buried_cost`. -/
def buriedFound (c : Nat) (found : List Nat) (ws : List (List Nat)) : Int :=
  buriedGo c found.headI found.length ws 4 (nthCard c found.headI found.length) 0

/-- Source `CalculationBoard.buried_cost`. -/
def Board.buriedCost (b : Board) : Int :=
  ((foundationsList b).map fun f => buriedFound b.cardsPerSuit f (wastesList b)).sum

/-- Python's `max` over a (nonempty) list of naturals; the `0` seed is inert. -/
def listMax (l : List Nat) : Nat := l.foldl max 0

/-- Python's `min` over a nonempty list of naturals. -/
def listMin (l : List Nat) : Nat :=
  match l with
  | [] => 0
  | x :: xs => xs.foldl min x

/-- Source `CalculationBoard.priority`, with Python's true division rendered in `ℚ`
and the hand-tuned multipliers `a = b = c = d = 1` kept as in the source. -/
def Board.priority (b : Board) : ℚ :=
  let foundSizes := (foundationsList b).map List.length
  let wasteSizes := (wastesList b).map List.length
  let progress : ℚ := (foundSizes.sum : ℚ)
  let distance : ℚ := (((b.cardsPerSuit * 4 : Int) - (b.lastUsed + 1 : Int) : Int) : ℚ)
  let foundDiff : ℚ := (listMax foundSizes : ℚ) - (listMin foundSizes : ℚ)
  let wasteDiff : ℚ := (listMax wasteSizes : ℚ) - (listMin wasteSizes : ℚ)
  let evenness : ℚ := (foundDiff + wasteDiff) / 4
  let difficulty : ℚ := (b.buriedCost : ℚ)
  let a : ℚ := 1
  let b' : ℚ := 1
  let c : ℚ := 1
  let d : ℚ := 1
  distance * a + difficulty * b' + evenness * c - progress * d

/-- Claim C3: for every board the evaluator returns
`priority = distance + difficulty + evenness - progress`, with
`progress` the number of cards on the four foundations,
`distance = 4*cards_per_suit - (deck_cursor + 1)`,
`evenness = ((max-min foundation length) + (max-min waste length)) / 4`
and `difficulty = buried_cost(board)`. -/
theorem c3_priority_formula (b : Board) :
    b.priority =
      (((4 * b.cardsPerSuit : Int) - (b.lastUsed + 1 : Int) : Int) : ℚ)
        + (b.buriedCost : ℚ)
        + ((listMax ((foundationsList b).map List.length) : ℚ)
            - (listMin ((foundationsList b).map List.length) : ℚ)
            + ((listMax ((wastesList b).map List.length) : ℚ)
            - (listMin ((wastesList b).map List.length) : ℚ))) / 4
        - (((foundationsList b).map List.length).sum : ℚ) := by
  unfold Board.priority
  push_cast
  ring

/-- Minimum of two optional naturals, `none` acting as "no value". -/
def omin : Option Nat → Option Nat → Option Nat
  | none, b => b
  | some a, none => some a
  | some a, some b => some (min a b)

theorem foldl_min_assoc (l : List Nat) : ∀ a b : Nat,
    l.foldl min (min a b) = min a (l.foldl min b) := by
  induction l with
  | nil => intro a b; rfl
  | cons y ys ih =>
    intro a b
    simp only [List.foldl]
    rw [min_assoc, ih]

theorem min?_cons_omin (x : Nat) (l : List Nat) :
    (x :: l).min? = omin (some x) l.min? := by
  cases l with
  | nil => rfl
  | cons y ys =>
    simp only [List.min?, omin, List.foldl]
    rw [foldl_min_assoc]

theorem omin_assoc (a b c : Option Nat) :
    omin (omin a b) c = omin a (omin b c) := by
  cases a <;> cases b <;> cases c <;> simp [omin, min_assoc]

theorem minDist_foldl (card : Nat) (ws : List (List Nat)) : ∀ acc : Option Nat,
    ws.foldl (fun acc w =>
      if card ∈ w then
        match acc with
        | none => some (w.length - w.indexOf card)
        | some d => some (min d (w.length - w.indexOf card))
      else acc) acc
    = omin acc ((ws.filterMap fun w =>
        if card ∈ w then some (w.length - w.indexOf card) else none).min?) := by
  induction ws with
  | nil => intro acc; cases acc <;> rfl
  | cons w ws ih =>
    intro acc
    by_cases hw : card ∈ w
    · have hfm : (List.filterMap (fun w =>
          if card ∈ w then some (w.length - w.indexOf card) else none) (w :: ws))
          = (w.length - w.indexOf card) :: List.filterMap (fun w =>
              if card ∈ w then some (w.length - w.indexOf card) else none) ws := by
        simp [List.filterMap_cons, hw]
      rw [List.foldl_cons, ih, hfm, min?_cons_omin]
      have hstep : (if card ∈ w then
          match acc with
          | none => some (w.length - w.indexOf card)
          | some d => some (min d (w.length - w.indexOf card))
          else acc)
          = omin acc (some (w.length - w.indexOf card)) := by
        rw [if_pos hw]; cases acc <;> rfl
      rw [hstep, omin_assoc]
    · have hfm : (List.filterMap (fun w =>
          if card ∈ w then some (w.length - w.indexOf card) else none) (w :: ws))
          = List.filterMap (fun w =>
              if card ∈ w then some (w.length - w.indexOf card) else none) ws := by
        simp [List.filterMap_cons, hw]
      rw [List.foldl_cons, ih, hfm, if_neg hw]

/-- The depth actually used by `buried_cost` for a required card, written
declaratively: across the waste piles containing the card, the minimum of
(pile length minus the lowest index at which the card occurs), i.e. the
depth from the top of the card's bottom-most occurrence. -/
def minBuriedDepth (card : Nat) (ws : List (List Nat)) : Option Nat :=
  (ws.filterMap fun w =>
    if card ∈ w then some (w.length - w.indexOf card) else none).min?

theorem minDist_eq (card : Nat) (ws : List (List Nat)) :
    minDist card ws = minBuriedDepth card ws := by
  unfold minDist minBuriedDepth
  rw [minDist_foldl]
  cases (ws.filterMap fun w =>
    if card ∈ w then some (w.length - w.indexOf card) else none).min? <;> rfl

theorem nthCard_succ (c base n : Nat) :
    (nthCard c base n + base) % c = nthCard c base (n + 1) := by
  unfold nthCard
  rw [Nat.mod_add_mod]
  congr 1
  ring

theorem buriedGo_eq (c base flen : Nat) (ws : List (List Nat)) : ∀ fuel i : Nat,
    buriedGo c base flen ws fuel (nthCard c base (flen + i)) i =
      (((List.range' i fuel).takeWhile fun j =>
          decide (nthCard c base (flen + j) ≠ base)).map fun j =>
        (match minDist (nthCard c base (flen + j)) ws with
          | none => 0
          | some d => (d : Int) * ((c : Int) - (flen : Int) - (j : Int)))).sum := by
  intro fuel
  induction fuel with
  | zero => intro i; rfl
  | succ fuel ih =>
    intro i
    by_cases hb : nthCard c base (flen + i) = base
    · rw [List.range'_succ, List.takeWhile_cons_of_neg (by simp [hb])]
      simp [buriedGo, hb]
    · rw [List.range'_succ, List.takeWhile_cons_of_pos (by simp [hb]),
        List.map_cons, List.sum_cons]
      have hL : buriedGo c base flen ws (fuel + 1) (nthCard c base (flen + i)) i
          = (match minDist (nthCard c base (flen + i)) ws with
              | none => 0
              | some d => (d : Int) * ((c : Int) - (flen : Int) - (i : Int)))
            + buriedGo c base flen ws fuel
                ((nthCard c base (flen + i) + base) % c) (i + 1) := by
        simp [buriedGo, hb]
      rw [hL, nthCard_succ, Nat.add_assoc, ih (i + 1)]

/-- One foundation's buried cost written declaratively, matching the code:
the lookahead j runs over at most 4 steps (`range(4)`), truncated at the
first step where the walked card `nth_card(base, len + j)` is back at the
base card; each step adds the bottom-most-occurrence depth times the
urgency weight `cards_per_suit - len - j`, absent cards adding 0. -/
def buriedFoundAmended (c : Nat) (found : List Nat) (ws : List (List Nat)) : Int :=
  (((List.range 4).takeWhile fun j =>
      decide (nthCard c found.headI (found.length + j) ≠ found.headI)).map fun j =>
    (match minBuriedDepth (nthCard c found.headI (found.length + j)) ws with
      | none => 0
      | some d => (d : Int) * ((c : Int) - (found.length : Int) - (j : Int)))).sum

/-- Modelled from the claim's words for `buried_cost` (not from the code):
the lookahead walks the modular sequence from the current top all the way
until it returns to the base card, and the depth of a required card is the
minimum depth from the top at which it sits across the waste piles (its
shallowest occurrence, `reverse.indexOf + 1`).  The walk returns to the base
within `cards_per_suit` steps, so `range cards_per_suit` covers it. -/
def specMinDepth (card : Nat) (ws : List (List Nat)) : Option Nat :=
  (ws.filterMap fun w =>
    if card ∈ w then some (w.reverse.indexOf card + 1) else none).min?

/-- Modelled from the claim's words: see `specMinDepth`. -/
def buriedFoundSpec (c : Nat) (found : List Nat) (ws : List (List Nat)) : Int :=
  (((List.range c).takeWhile fun j =>
      decide (nthCard c found.headI (found.length + j) ≠ found.headI)).map fun j =>
    (match specMinDepth (nthCard c found.headI (found.length + j)) ws with
      | none => 0
      | some d => (d : Int) * ((c : Int) - (found.length : Int) - (j : Int)))).sum

/-- Modelled from the claim's words: `buried_cost` as claim C4 describes it. -/
def buriedCostSpec (b : Board) : Int :=
  ((foundationsList b).map fun f => buriedFoundSpec b.cardsPerSuit f (wastesList b)).sum

/-- A concrete board refuting claim C4: `cards_per_suit = 7`, foundations
`[1] [2] [3] [4]`, waste piles `[6]`, `[2,3,2]`, `[]`, `[]`.  The code's
lookahead stops after 4 steps (so the 6 needed fifth by foundation 1 is
never costed), and for the duplicated 2 in the second waste pile the code
measures depth to the bottom-most occurrence (3), not the minimum depth (1). -/
def b7 : Board :=
  { cardsPerSuit := 7
    piles := fun i => [[1], [2], [3], [4], [6], [2, 3, 2], [], []].getD i.val []
    lastUsed := 3
    nMoves := 0
    moves := []
    kingsSeen := 0 }

/-- Claim C4 fails as stated: on the board `b7` the code's `buried_cost`
differs from the claim's full-cycle, shallowest-occurrence formula. -/
theorem c4_counterexample : Board.buriedCost b7 ≠ buriedCostSpec b7 := by decide

/-- Claim C4 as amended: `buried_cost` sums, over each foundation and over
the lookahead indices `j` of `range(4)` truncated at the first return of the
walked modular sequence to the base card, the depth of the required card's
bottom-most occurrence (minimized across the four waste piles) times
`cards_per_suit - len(foundation) - j`; cards in no waste pile add 0. -/
theorem c4_amended (b : Board) :
    b.buriedCost = ((foundationsList b).map fun f =>
      buriedFoundAmended b.cardsPerSuit f (wastesList b)).sum := by
  unfold Board.buriedCost
  congr 1
  refine List.map_congr_left fun f _ => ?_
  unfold buriedFound buriedFoundAmended
  have h := buriedGo_eq b.cardsPerSuit f.headI f.length (wastesList b) 4 0
  rw [Nat.add_zero] at h
  rw [h, ← List.range_eq_range']
  simp only [minDist_eq]

/-- The four foundation indices, `range(4)`. -/
def foundIdxs : List (Fin 8) := [0, 1, 2, 3]

/-- The four waste indices, `range(4, 8)`. -/
def wasteIdxs : List (Fin 8) := [4, 5, 6, 7]

/-- Source `Calculation.precedes`: a King precedes nothing; otherwise the card
precedes `next` when for some foundation `i`, `next == card + base_i`
(no modular reduction in the source) and the card is not already on that
foundation. -/
def precedes (b : Board) (card next : Nat) : Bool :=
  if card = 0 then false
  else foundIdxs.any fun i =>
    decide (next = card + (b.piles i).headI) && decide (card ∉ b.piles i)

/-- Source `Calculation.ranked_wastes_short_term`: builds the list of deck→waste
children, skipping boards already in `self.played`; a board whose waste pile
is nonempty and whose top card the drawn card `precedes` is inserted at the
front; otherwise the King pile accepts the card only when it is a King or
all four Kings were seen, and any other pile appends the board unless
`card == cards_per_suit` (which never holds for a card value). -/
def rankedWastesShortTerm (played : Board → Bool) (card : Nat) (b : Board) :
    List Board :=
  wasteIdxs.foldl (fun acc w =>
    let nb := b.playDrawn card w
    if played nb = true then acc
    else if 0 < (b.piles w).length ∧ precedes b card ((b.piles w).getLastD 0) = true then
      nb :: acc
    else if w = kPile then
      if card = 0 ∨ b.kingsSeen = 4 then acc ++ [nb] else acc
    else if card = b.cardsPerSuit then acc
    else acc ++ [nb]) []

/-- The chain condition of `ranked_wastes_short_term` as the code computes
it: the waste pile is nonempty and the drawn card `precedes` its top card. -/
def chainCond (b : Board) (card : Nat) (w : Fin 8) : Prop :=
  0 < (b.piles w).length ∧ precedes b card ((b.piles w).getLastD 0) = true

instance (b : Board) (card : Nat) (w : Fin 8) : Decidable (chainCond b card w) := by
  unfold chainCond; infer_instance

/-- A chain pile that survives the `played` filter. -/
def chainKeep (played : Board → Bool) (card : Nat) (b : Board) (w : Fin 8) : Prop :=
  played (b.playDrawn card w) = false ∧ chainCond b card w

instance (played : Board → Bool) (card : Nat) (b : Board) (w : Fin 8) :
    Decidable (chainKeep played card b w) := by
  unfold chainKeep; infer_instance

/-- A non-chain pile that `ranked_wastes_short_term` appends: not played,
not a chain pile, and either the King pile with a King (or all Kings seen)
or a regular pile with `card ≠ cards_per_suit`. -/
def nonChainAccept (played : Board → Bool) (card : Nat) (b : Board) (w : Fin 8) : Prop :=
  played (b.playDrawn card w) = false ∧ ¬ chainCond b card w ∧
    (if w = kPile then card = 0 ∨ b.kingsSeen = 4 else card ≠ b.cardsPerSuit)

instance (played : Board → Bool) (card : Nat) (b : Board) (w : Fin 8) :
    Decidable (nonChainAccept played card b w) := by
  unfold nonChainAccept; infer_instance

theorem rwst_fold (played : Board → Bool) (card : Nat) (b : Board) :
    ∀ (l : List (Fin 8)) (acc : List Board),
    l.foldl (fun acc w =>
      let nb := b.playDrawn card w
      if played nb = true then acc
      else if 0 < (b.piles w).length ∧ precedes b card ((b.piles w).getLastD 0) = true then
        nb :: acc
      else if w = kPile then
        if card = 0 ∨ b.kingsSeen = 4 then acc ++ [nb] else acc
      else if card = b.cardsPerSuit then acc
      else acc ++ [nb]) acc
    = ((l.filter fun w => decide (chainKeep played card b w)).reverse.map
        fun w => b.playDrawn card w)
      ++ acc
      ++ ((l.filter fun w => decide (nonChainAccept played card b w)).map
        fun w => b.playDrawn card w) := by
  intro l
  induction l with
  | nil => intro acc; simp
  | cons w l ih =>
    intro acc
    rw [List.foldl_cons]
    by_cases hk : chainKeep played card b w
    · have hn : ¬ nonChainAccept played card b w := fun hn => hn.2.1 hk.2
      have hstep : (let nb := b.playDrawn card w
          if played nb = true then acc
          else if 0 < (b.piles w).length ∧ precedes b card ((b.piles w).getLastD 0) = true then
            nb :: acc
          else if w = kPile then
            if card = 0 ∨ b.kingsSeen = 4 then acc ++ [nb] else acc
          else if card = b.cardsPerSuit then acc
          else acc ++ [nb])
          = b.playDrawn card w :: acc := by
        have h2 : 0 < (b.piles w).length ∧
            precedes b card ((b.piles w).getLastD 0) = true := hk.2
        simp only [hk.1, Bool.false_eq_true, if_false, if_pos h2]
      rw [hstep, ih]
      simp [List.filter_cons, hk, hn]
    · by_cases ha : nonChainAccept played card b w
      · have hstep : (let nb := b.playDrawn card w
            if played nb = true then acc
            else if 0 < (b.piles w).length ∧ precedes b card ((b.piles w).getLastD 0) = true then
              nb :: acc
            else if w = kPile then
              if card = 0 ∨ b.kingsSeen = 4 then acc ++ [nb] else acc
            else if card = b.cardsPerSuit then acc
            else acc ++ [nb])
            = acc ++ [b.playDrawn card w] := by
          rcases ha with ⟨hp, hc, hrest⟩
          have hc' : ¬ (0 < (b.piles w).length ∧
              precedes b card ((b.piles w).getLastD 0) = true) := hc
          simp only [hp, Bool.false_eq_true, if_false, if_neg hc']
          by_cases hkp : w = kPile
          · rw [if_pos hkp]
            rw [if_pos hkp] at hrest
            rw [if_pos hrest]
          · rw [if_neg hkp]
            rw [if_neg hkp] at hrest
            rw [if_neg hrest]
        rw [hstep, ih]
        simp [List.filter_cons, hk, ha]
      · have hstep : (let nb := b.playDrawn card w
            if played nb = true then acc
            else if 0 < (b.piles w).length ∧ precedes b card ((b.piles w).getLastD 0) = true then
              nb :: acc
            else if w = kPile then
              if card = 0 ∨ b.kingsSeen = 4 then acc ++ [nb] else acc
            else if card = b.cardsPerSuit then acc
            else acc ++ [nb])
            = acc := by
          by_cases hp : played (b.playDrawn card w) = true
          · rw [if_pos hp]
          · have hp' : played (b.playDrawn card w) = false := by
              cases h : played (b.playDrawn card w)
              · rfl
              · exact absurd h hp
            have hc : ¬ chainCond b card w := fun hc => hk ⟨hp', hc⟩
            have hc' : ¬ (0 < (b.piles w).length ∧
                precedes b card ((b.piles w).getLastD 0) = true) := hc
            simp only [hp', Bool.false_eq_true, if_false, if_neg hc']
            by_cases hkp : w = kPile
            · rw [if_pos hkp]
              have hno : ¬ (card = 0 ∨ b.kingsSeen = 4) := by
                intro hyes
                exact ha ⟨hp', hc, by rw [if_pos hkp]; exact hyes⟩
              rw [if_neg hno]
            · rw [if_neg hkp]
              have hcc : card = b.cardsPerSuit := by
                by_contra hcc
                exact ha ⟨hp', hc, by rw [if_neg hkp]; exact hcc⟩
              rw [if_pos hcc]
        rw [hstep, ih]
        simp [List.filter_cons, hk, ha]

/-- Modelled from the claim's words (not from the code): rank a waste pile
first when the card about to be placed is the direct modular predecessor of
the pile's top card, i.e. the top card equals
`(card + base_f) mod cards_per_suit` for some foundation base; otherwise
apply the king-reserved logic (Kings, or anything once all four Kings were
seen, to the reserved pile; non-King cards to the other piles). -/
def specChain (b : Board) (card : Nat) (w : Fin 8) : Prop :=
  0 < (b.piles w).length ∧
    ∃ i ∈ foundIdxs, (b.piles w).getLastD 0 = (card + (b.piles i).headI) % b.cardsPerSuit

instance (b : Board) (card : Nat) (w : Fin 8) : Decidable (specChain b card w) := by
  unfold specChain; infer_instance

/-- Modelled from the claim's words: see `specChain`. -/
def rankedWastesShortTermSpec (card : Nat) (b : Board) : List Board :=
  wasteIdxs.foldl (fun acc w =>
    let nb := b.playDrawn card w
    if specChain b card w then nb :: acc
    else if w = kPile then
      if card = 0 ∨ b.kingsSeen = 4 then acc ++ [nb] else acc
    else if card = 0 then acc
    else acc ++ [nb]) []

/-- A concrete board refuting claim C9: `cards_per_suit = 5`, foundations
`[1] [2] [3] [4]`, first waste pile `[1]`, drawing the card 4.  Since
`(4 + 2) % 5 = 1`, the claim's modular-predecessor rule ranks the first
waste pile (the King pile) ahead; the source's `precedes` compares without
the modulus (`1 == 4 + base` never holds), falls through to the King-pile
branch and skips that pile entirely. -/
def bC9 : Board :=
  { cardsPerSuit := 5
    piles := fun i => [[1], [2], [3], [4], [1], [], [], []].getD i.val []
    lastUsed := 3
    nMoves := 0
    moves := []
    kingsSeen := 0 }

/-- Claim C9 fails as stated: with no board yet played, the code's ranking
of waste placements for card 4 on `bC9` differs from the claim's
modular-predecessor-then-king-reserved ranking. -/
theorem c9_counterexample :
    rankedWastesShortTerm (fun _ => false) 4 bC9 ≠ rankedWastesShortTermSpec 4 bC9 := by
  decide

/-- Claim C9 as amended: `ranked_wastes_short_term` returns first — in
reverse pile order — the placements on waste piles whose top card the drawn
card `precedes` in the source's non-modular sense (`top == card + base_f`
exactly, the card not already on foundation `f`, and a King precedes
nothing), then in pile order the other placements, where the King pile is
kept only for Kings (or once all four Kings were seen), the comparison
meant to keep Kings off the other piles tests `card == cards_per_suit` and
so never excludes anything, and boards already played are skipped. -/
theorem c9_amended (played : Board → Bool) (card : Nat) (b : Board) :
    rankedWastesShortTerm played card b
      = ((wasteIdxs.filter fun w => decide (chainKeep played card b w)).reverse.map
          fun w => b.playDrawn card w)
        ++ ((wasteIdxs.filter fun w => decide (nonChainAccept played card b w)).map
          fun w => b.playDrawn card w) := by
  unfold rankedWastesShortTerm
  rw [rwst_fold]
  simp

/-- Source `Calculation.children`, waste→foundation part: for each nonempty waste
heap and each foundation, a `move_card` child when `valid_move` holds. -/
def childrenWasteMoves (b : Board) : List Board :=
  wasteIdxs.flatMap fun w =>
    if 0 < (b.piles w).length then
      foundIdxs.filterMap fun f =>
        if b.validMove w f = true then some (b.moveCard w f) else none
    else []

/-- Source `Calculation.children`: waste→foundation moves, then — when the deck is
not exhausted — `play_drawn` onto each foundation accepting the next deck
card, then the ranked deck→waste placements. -/
def children (deck : List Nat) (played : Board → Bool) (b : Board) : List Board :=
  let wasteMoves := childrenWasteMoves b
  if b.lastUsed < deck.length - 1 then
    let nextCard := deck.getD (b.lastUsed + 1) 0
    let foundPlays := foundIdxs.filterMap fun f =>
      if b.validSet nextCard f = true then some (b.playDrawn nextCard f) else none
    wasteMoves ++ foundPlays ++ rankedWastesShortTerm played nextCard b
  else wasteMoves

/-- Number of cards drawn from the deck, `last_used + 1` (the four base
cards head the deck and count as drawn on the initial board). -/
def Board.drawn (b : Board) : Nat := b.lastUsed + 1

/-- Total number of cards on the four foundations. -/
def foundTotal (b : Board) : Nat := ((foundationsList b).map List.length).sum

/-- Total number of cards across the eight piles. -/
def totalCards (b : Board) : Nat := ((pilesList b).map List.length).sum

/-- Cards drawn plus cards on the foundations: the quantity every generated
move strictly increases. -/
def progressMeasure (b : Board) : Nat := b.drawn + foundTotal b

theorem playDrawn_piles (b : Board) (card : Nat) (dest i : Fin 8) :
    (b.playDrawn card dest).piles i
      = if i = dest then b.piles dest ++ [card] else b.piles i := by
  simp [Board.playDrawn, Function.update_apply]

theorem moveCard_piles (b : Board) (src dest i : Fin 8) :
    (b.moveCard src dest).piles i =
      if i = dest then
        (if dest = src then (b.piles src).dropLast else b.piles dest)
          ++ [(b.piles src).getLastD 0]
      else if i = src then (b.piles src).dropLast
      else b.piles i := by
  simp [Board.moveCard, Function.update_apply]

theorem foundTotal_playDrawn_waste (b : Board) (card : Nat) (w : Fin 8)
    (hw : 4 ≤ w.val) :
    foundTotal (b.playDrawn card w) = foundTotal b := by
  rcases w with ⟨v, hv⟩
  interval_cases v <;>
    simp [foundTotal, foundationsList, playDrawn_piles]

theorem foundTotal_playDrawn_found (b : Board) (card : Nat) (f : Fin 8)
    (hf : f.val < 4) :
    foundTotal (b.playDrawn card f) = foundTotal b + 1 := by
  rcases f with ⟨v, hv⟩
  interval_cases v <;>
    simp [foundTotal, foundationsList, playDrawn_piles] <;> omega

theorem totalCards_playDrawn (b : Board) (card : Nat) (dest : Fin 8) :
    totalCards (b.playDrawn card dest) = totalCards b + 1 := by
  rcases dest with ⟨v, hv⟩
  interval_cases v <;>
    simp [totalCards, pilesList, playDrawn_piles] <;> omega

theorem foundTotal_moveCard (b : Board) (src dest : Fin 8)
    (hw : 4 ≤ src.val) (hf : dest.val < 4) :
    foundTotal (b.moveCard src dest) = foundTotal b + 1 := by
  fin_cases src <;> fin_cases dest <;>
    first
      | exact absurd hw (by decide)
      | exact absurd hf (by decide)
      | (simp [foundTotal, foundationsList, moveCard_piles]; omega)

theorem totalCards_moveCard (b : Board) (src dest : Fin 8)
    (hw : 4 ≤ src.val) (hf : dest.val < 4) :
    0 < (b.piles src).length → totalCards (b.moveCard src dest) = totalCards b := by
  fin_cases src <;> fin_cases dest <;>
    first
      | exact absurd hw (by decide)
      | exact absurd hf (by decide)
      | (simp [totalCards, pilesList, moveCard_piles]; omega)

theorem mem_rankedWastes {played : Board → Bool} {card : Nat} {b b' : Board}
    (h : b' ∈ rankedWastesShortTerm played card b) :
    ∃ w : Fin 8, 4 ≤ w.val ∧ b' = b.playDrawn card w := by
  unfold rankedWastesShortTerm at h
  rw [rwst_fold] at h
  simp only [List.append_nil] at h
  have hall : ∀ w ∈ wasteIdxs, 4 ≤ w.val := by decide
  rcases List.mem_append.1 h with h1 | h1
  · rcases List.mem_map.1 h1 with ⟨w, hw, rfl⟩
    exact ⟨w, hall w (List.mem_filter.1 (List.mem_reverse.1 hw) |>.1), rfl⟩
  · rcases List.mem_map.1 h1 with ⟨w, hw, rfl⟩
    exact ⟨w, hall w (List.mem_filter.1 hw |>.1), rfl⟩

theorem mem_childrenWasteMoves {b b' : Board} (h : b' ∈ childrenWasteMoves b) :
    ∃ w f : Fin 8, 4 ≤ w.val ∧ f.val < 4 ∧ 0 < (b.piles w).length ∧
      b.validMove w f = true ∧ b' = b.moveCard w f := by
  unfold childrenWasteMoves at h
  rcases List.mem_flatMap.1 h with ⟨w, hwmem, hw⟩
  have hwv : 4 ≤ w.val := by
    have hall : ∀ w ∈ wasteIdxs, 4 ≤ w.val := by decide
    exact hall w hwmem
  by_cases hlen : 0 < (b.piles w).length
  · rw [if_pos hlen] at hw
    rcases List.mem_filterMap.1 hw with ⟨f, hfmem, hf⟩
    have hfv : f.val < 4 := by
      have hall : ∀ f ∈ foundIdxs, f.val < 4 := by decide
      exact hall f hfmem
    by_cases hvm : b.validMove w f = true
    · rw [if_pos hvm] at hf
      exact ⟨w, f, hwv, hfv, hlen, hvm, (Option.some.injEq _ _ ▸ hf).symm⟩
    · rw [if_neg hvm] at hf
      exact absurd hf (by simp)
  · rw [if_neg hlen] at hw
    exact absurd hw (by simp)

theorem mem_children {deck : List Nat} {played : Board → Bool} {b b' : Board}
    (h : b' ∈ children deck played b) :
    (∃ w f : Fin 8, 4 ≤ w.val ∧ f.val < 4 ∧ 0 < (b.piles w).length ∧
      b.validMove w f = true ∧ b' = b.moveCard w f)
    ∨ (b.lastUsed < deck.length - 1 ∧
        ((∃ f : Fin 8, f.val < 4 ∧
            b.validSet (deck.getD (b.lastUsed + 1) 0) f = true ∧
            b' = b.playDrawn (deck.getD (b.lastUsed + 1) 0) f)
        ∨ (∃ w : Fin 8, 4 ≤ w.val ∧
            b' = b.playDrawn (deck.getD (b.lastUsed + 1) 0) w))) := by
  unfold children at h
  by_cases hd : b.lastUsed < deck.length - 1
  · rw [if_pos hd] at h
    rcases List.mem_append.1 h with h1 | h1
    · rcases List.mem_append.1 h1 with h2 | h2
      · exact Or.inl (mem_childrenWasteMoves h2)
      · rcases List.mem_filterMap.1 h2 with ⟨f, hfmem, hf⟩
        have hfv : f.val < 4 := by
          have hall : ∀ f ∈ foundIdxs, f.val < 4 := by decide
          exact hall f hfmem
        by_cases hvs : b.validSet (deck.getD (b.lastUsed + 1) 0) f = true
        · rw [if_pos hvs] at hf
          exact Or.inr ⟨hd, Or.inl ⟨f, hfv, hvs, (Option.some.injEq _ _ ▸ hf).symm⟩⟩
        · rw [if_neg hvs] at hf
          exact absurd hf (by simp)
    · rcases mem_rankedWastes h1 with ⟨w, hwv, rfl⟩
      exact Or.inr ⟨hd, Or.inr ⟨w, hwv, rfl⟩⟩
  · rw [if_neg hd] at h
    exact Or.inl (mem_childrenWasteMoves h)

/-- A child relation quantified over the duplicate filter: `b'` is produced
by `Calculation.children` from `b` for some state of the played set. -/
def StepGen (deck : List Nat) (b b' : Board) : Prop :=
  ∃ played : Board → Bool, b' ∈ children deck played b

theorem validSet_foundation_lt {b : Board} {card : Nat} {f : Fin 8}
    (hf : f.val < 4) (h : b.validSet card f = true) :
    (b.piles f).length < b.cardsPerSuit := by
  have hfw : isWaste f = false := by
    simp [isWaste]; omega
  simp [Board.validSet, hfw] at h
  exact h.1

theorem validMove_validSet {b : Board} {s d : Fin 8} (h : b.validMove s d = true) :
    b.validSet ((b.piles s).getLastD 0) d = true := by
  simp only [Board.validMove, Bool.and_eq_true] at h
  exact h.2

theorem playDrawn_lastUsed (b : Board) (card : Nat) (dest : Fin 8) :
    (b.playDrawn card dest).lastUsed = b.lastUsed + 1 := rfl

theorem moveCard_lastUsed (b : Board) (src dest : Fin 8) :
    (b.moveCard src dest).lastUsed = b.lastUsed := rfl

theorem playDrawn_cardsPerSuit (b : Board) (card : Nat) (dest : Fin 8) :
    (b.playDrawn card dest).cardsPerSuit = b.cardsPerSuit := rfl

theorem moveCard_cardsPerSuit (b : Board) (src dest : Fin 8) :
    (b.moveCard src dest).cardsPerSuit = b.cardsPerSuit := rfl

/-- Claim C5: every board reachable from the initial board by generated
moves satisfies the conservation law: the cards on the eight piles plus the
undrawn cards `deck_length - deck_cursor - 1` total `4*cards_per_suit`. -/
theorem c5_conservation (deck : List Nat) (c : Nat) (b : Board)
    (hdeck : deck.length = 4 * c)
    (h : Relation.ReflTransGen (StepGen deck) (initialBoard c) b) :
    (totalCards b : Int) + ((deck.length : Int) - (b.lastUsed : Int) - 1)
      = 4 * (b.cardsPerSuit : Int) := by
  induction h with
  | refl =>
    have h1 : totalCards (initialBoard c) = 4 := rfl
    have h2 : (initialBoard c).lastUsed = 3 := rfl
    have h3 : (initialBoard c).cardsPerSuit = c := rfl
    rw [h1, h2, h3, hdeck]
    push_cast
    ring
  | tail hsteps hstep ih =>
    rcases hstep with ⟨played, hmem⟩
    rcases mem_children hmem with
      ⟨w, f, hwv, hfv, hlen, hvm, rfl⟩ | ⟨hd, ⟨f, hfv, hvs, rfl⟩ | ⟨w, hwv, rfl⟩⟩
    · rw [totalCards_moveCard _ w f hwv hfv hlen, moveCard_lastUsed,
        moveCard_cardsPerSuit]
      exact ih
    · rw [totalCards_playDrawn, playDrawn_lastUsed, playDrawn_cardsPerSuit]
      push_cast at ih ⊢
      omega
    · rw [totalCards_playDrawn, playDrawn_lastUsed, playDrawn_cardsPerSuit]
      push_cast at ih ⊢
      omega

/-- A deck for `cards_per_suit = 5`: the four base cards first, then the
sixteen remaining cards. -/
def deck20 : List Nat := [1, 2, 3, 4, 2, 3, 4, 0, 1, 3, 4, 0, 1, 2, 4, 0, 1, 2, 3, 0]

theorem c5_conservation_witness :
    (deck20.length = 4 * 5 ∧
      Relation.ReflTransGen (StepGen deck20) (initialBoard 5) (initialBoard 5)) ∧
    (totalCards (initialBoard 5) : Int)
        + ((deck20.length : Int) - ((initialBoard 5).lastUsed : Int) - 1)
      = 4 * ((initialBoard 5).cardsPerSuit : Int) :=
  ⟨⟨by decide, Relation.ReflTransGen.refl⟩,
    c5_conservation deck20 5 (initialBoard 5) (by decide) Relation.ReflTransGen.refl⟩

/-- An `n`-step iteration of the generated-move relation. -/
inductive StepsN (deck : List Nat) : Nat → Board → Board → Prop
  | refl (b : Board) : StepsN deck 0 b b
  | tail {n : Nat} {b b' b'' : Board} :
      StepsN deck n b b' → StepGen deck b' b'' → StepsN deck (n + 1) b b''

theorem progressMeasure_child {deck : List Nat} {played : Board → Bool}
    {b b' : Board} (h : b' ∈ children deck played b) :
    progressMeasure b < progressMeasure b' := by
  rcases mem_children h with
    ⟨w, f, hwv, hfv, hlen, hvm, rfl⟩ | ⟨hd, ⟨f, hfv, hvs, rfl⟩ | ⟨w, hwv, rfl⟩⟩
  · unfold progressMeasure Board.drawn
    rw [foundTotal_moveCard b w f hwv hfv, moveCard_lastUsed]
    omega
  · unfold progressMeasure Board.drawn
    rw [foundTotal_playDrawn_found b _ f hfv, playDrawn_lastUsed]
    omega
  · unfold progressMeasure Board.drawn
    rw [foundTotal_playDrawn_waste b _ w hwv, playDrawn_lastUsed]
    omega

theorem foundTotal_le {b : Board} {c : Nat}
    (h : ∀ i : Fin 8, i.val < 4 → (b.piles i).length ≤ c) :
    foundTotal b ≤ 4 * c := by
  have h0 := h 0 (by decide)
  have h1 := h 1 (by decide)
  have h2 := h 2 (by decide)
  have h3 := h 3 (by decide)
  have he : foundTotal b
      = (b.piles 0).length + ((b.piles 1).length
        + ((b.piles 2).length + ((b.piles 3).length + 0))) := rfl
  omega

theorem stepsN_invariant {deck : List Nat} {c : Nat} (hc : 1 ≤ c)
    (hdeck : deck.length = 4 * c) :
    ∀ {n : Nat} {b : Board}, StepsN deck n (initialBoard c) b →
      b.cardsPerSuit = c ∧ b.lastUsed + 1 ≤ 4 * c ∧
        (∀ i : Fin 8, i.val < 4 → (b.piles i).length ≤ c) ∧
        n + 8 ≤ progressMeasure b := by
  have main : ∀ {n : Nat} {b0 b : Board}, StepsN deck n b0 b →
      b0 = initialBoard c →
      b.cardsPerSuit = c ∧ b.lastUsed + 1 ≤ 4 * c ∧
        (∀ i : Fin 8, i.val < 4 → (b.piles i).length ≤ c) ∧
        n + 8 ≤ progressMeasure b := by
    intro n b0 b h
    induction h with
    | refl b1 =>
      intro he
      subst he
      refine ⟨rfl, by simp [initialBoard]; omega, ?_, ?_⟩
      · intro i hi
        have hpi : (initialBoard c).piles i = [i.val + 1] := by
          simp [initialBoard, hi]
        rw [hpi]
        simpa using hc
      · have hμ : progressMeasure (initialBoard c) = 8 := rfl
        omega
    | @tail n bsrc bmid bnext hsteps hstep ih =>
      intro he
      obtain ⟨hcs, hlu, hpil, hmu⟩ := ih he
      rcases hstep with ⟨played, hmem⟩
      have hlt := progressMeasure_child hmem
      rcases mem_children hmem with
        ⟨w, f, hwv, hfv, hlen, hvm, rfl⟩ | ⟨hd, ⟨f, hfv, hvs, rfl⟩ | ⟨w, hwv, rfl⟩⟩
      · refine ⟨by rw [moveCard_cardsPerSuit]; exact hcs,
          by rw [moveCard_lastUsed]; exact hlu, ?_, by omega⟩
        intro i hi
        have hlt2 : (bmid.piles f).length < c := by
          rw [← hcs]
          exact validSet_foundation_lt hfv (validMove_validSet hvm)
        have hfw : ¬ (f = w) := by
          intro hfe
          rw [hfe] at hfv
          omega
        rw [moveCard_piles]
        by_cases hif : i = f
        · rw [if_pos hif, if_neg hfw]
          simp
          omega
        · have hiw : ¬ (i = w) := by
            intro hie
            rw [hie] at hi
            omega
          rw [if_neg hif, if_neg hiw]
          exact hpil i hi
      · refine ⟨by rw [playDrawn_cardsPerSuit]; exact hcs, ?_, ?_, by omega⟩
        · rw [playDrawn_lastUsed]
          rw [hdeck] at hd
          omega
        · intro i hi
          have hlt2 : (bmid.piles f).length < c := by
            rw [← hcs]
            exact validSet_foundation_lt hfv hvs
          rw [playDrawn_piles]
          by_cases hif : i = f
          · rw [if_pos hif]
            simp
            omega
          · rw [if_neg hif]
            exact hpil i hi
      · refine ⟨by rw [playDrawn_cardsPerSuit]; exact hcs, ?_, ?_, by omega⟩
        · rw [playDrawn_lastUsed]
          rw [hdeck] at hd
          omega
        · intro i hi
          have hiw : ¬ (i = w) := by
            intro hie
            rw [hie] at hi
            omega
          rw [playDrawn_piles, if_neg hiw]
          exact hpil i hi
  intro n b h
  exact main h rfl

/-- Claim C10: every generated move strictly increases
drawn-cards + foundation-cards; hence no board recurs along any move
sequence (the relation's transitive closure is irreflexive) and every move
sequence from the initial board has length bounded by `8*cards_per_suit`,
making the reachable state graph a finite acyclic one. -/
theorem c10_monotone_acyclic :
    (∀ (deck : List Nat) (played : Board → Bool) (b b' : Board),
        b' ∈ children deck played b → progressMeasure b < progressMeasure b')
    ∧ (∀ (deck : List Nat) (b b' : Board),
        Relation.TransGen (StepGen deck) b b' →
          progressMeasure b < progressMeasure b' ∧ b ≠ b')
    ∧ (∀ (deck : List Nat) (c n : Nat) (b : Board),
        1 ≤ c → deck.length = 4 * c → StepsN deck n (initialBoard c) b →
          n + 8 ≤ 8 * c) := by
  have h1 : ∀ (deck : List Nat) (played : Board → Bool) (b b' : Board),
      b' ∈ children deck played b → progressMeasure b < progressMeasure b' :=
    fun _ _ _ _ h => progressMeasure_child h
  have h2 : ∀ (deck : List Nat) (b b' : Board),
      Relation.TransGen (StepGen deck) b b' →
        progressMeasure b < progressMeasure b' := by
    intro deck b b' h
    induction h with
    | single hstep =>
      rcases hstep with ⟨played, hm⟩
      exact progressMeasure_child hm
    | @tail bmid bnext hsteps hstep ih =>
      rcases hstep with ⟨played, hm⟩
      exact lt_trans ih (progressMeasure_child hm)
  refine ⟨h1, fun deck b b' h => ⟨h2 deck b b' h, fun he => ?_⟩, ?_⟩
  · subst he
    exact absurd (h2 deck b b h) (lt_irrefl _)
  · intro deck c n b hc hdeck hsteps
    obtain ⟨-, hlu, hpil, hmu⟩ := stepsN_invariant hc hdeck hsteps
    have hft := foundTotal_le hpil
    have : progressMeasure b = b.lastUsed + 1 + foundTotal b := rfl
    omega

theorem c10_monotone_acyclic_witness :
    ((initialBoard 5).playDrawn 2 0
        ∈ children deck20 (fun _ => false) (initialBoard 5)
      ∧ Relation.TransGen (StepGen deck20) (initialBoard 5)
          ((initialBoard 5).playDrawn 2 0)
      ∧ (1 ≤ 5 ∧ deck20.length = 4 * 5
      ∧ StepsN deck20 1 (initialBoard 5) ((initialBoard 5).playDrawn 2 0)))
    ∧ (progressMeasure (initialBoard 5)
        < progressMeasure ((initialBoard 5).playDrawn 2 0)
      ∧ (progressMeasure (initialBoard 5)
          < progressMeasure ((initialBoard 5).playDrawn 2 0)
        ∧ initialBoard 5 ≠ (initialBoard 5).playDrawn 2 0)
      ∧ 1 + 8 ≤ 8 * 5) := by
  have hmem : (initialBoard 5).playDrawn 2 0
      ∈ children deck20 (fun _ => false) (initialBoard 5) := by decide
  have hstep : StepGen deck20 (initialBoard 5) ((initialBoard 5).playDrawn 2 0) :=
    ⟨fun _ => false, hmem⟩
  exact ⟨⟨hmem, Relation.TransGen.single hstep,
      by decide, by decide, StepsN.tail (StepsN.refl _) hstep⟩,
    c10_monotone_acyclic.1 deck20 (fun _ => false) _ _ hmem,
    c10_monotone_acyclic.2.1 deck20 _ _ (Relation.TransGen.single hstep),
    c10_monotone_acyclic.2.2 deck20 5 1 _ (by decide) (by decide)
      (StepsN.tail (StepsN.refl _) hstep)⟩

/-- Source `CalculationBoard.__eq__`, which compares `str(self) == str(other)`.
`__str__` renders, each field on its own line: the priority (itself a
function of `cards_per_suit`, `piles` and `last_used` only), `n_moves`,
`last_used + 1` and `cards_per_suit * 4` (the "Drawn: a/b" line), and the
eight piles; rendering is injective field by field, so string equality is
exactly equality of these rendered components.  The move log is not
rendered and does not participate. -/
def eqB (b₁ b₂ : Board) : Bool :=
  decide (b₁.priority = b₂.priority ∧ b₁.nMoves = b₂.nMoves ∧
    b₁.lastUsed = b₂.lastUsed ∧ b₁.cardsPerSuit * 4 = b₂.cardsPerSuit * 4 ∧
    ∀ i : Fin 8, b₁.piles i = b₂.piles i)

/-- The board after drawing the card 2 straight onto foundation 1. -/
def bA : Board := (initialBoard 5).playDrawn 2 0

/-- The board with the same piles reached the long way: the 2 is drawn onto
the first waste pile and then moved onto foundation 1, so `n_moves` is 2. -/
def bB : Board := ((initialBoard 5).playDrawn 2 4).moveCard 4 0

/-- Claim C7 fails as stated: `bA` and `bB` have element-wise equal piles
(and equal deck cursors), yet `__eq__` distinguishes them because the
rendered string includes the move count (1 versus 2). -/
theorem c7_counterexample :
    (∀ i : Fin 8, bA.piles i = bB.piles i) ∧ eqB bA bB = false := by
  constructor
  · decide
  · have hne : ¬ (bA.priority = bB.priority ∧ bA.nMoves = bB.nMoves ∧
        bA.lastUsed = bB.lastUsed ∧ bA.cardsPerSuit * 4 = bB.cardsPerSuit * 4 ∧
        ∀ i : Fin 8, bA.piles i = bB.piles i) := by
      rintro ⟨-, h2, -⟩
      revert h2
      decide
    exact decide_eq_false hne

/-- Claim C7 as amended: two boards are equal iff their string renderings
agree, i.e. iff their move counts, deck cursors, `cards_per_suit` values
and eight piles are all equal.  The move count and the deck cursor ARE part
of board identity; only the move log is not (the priority line adds
nothing, being determined by the other fields). -/
theorem c7_amended (b₁ b₂ : Board) :
    eqB b₁ b₂ = true ↔
      (b₁.nMoves = b₂.nMoves ∧ b₁.lastUsed = b₂.lastUsed ∧
        b₁.cardsPerSuit = b₂.cardsPerSuit ∧ ∀ i : Fin 8, b₁.piles i = b₂.piles i) := by
  unfold eqB
  rw [decide_eq_true_iff]
  constructor
  · rintro ⟨-, h2, h3, h4, h5⟩
    exact ⟨h2, h3, by omega, h5⟩
  · rintro ⟨h2, h3, h4, h5⟩
    have hp : b₁.piles = b₂.piles := funext h5
    refine ⟨?_, h2, h3, by omega, h5⟩
    unfold Board.priority Board.buriedCost foundationsList wastesList
    rw [hp, h3, h4]

/-- Source `Calculation.is_lost`: declared but unimplemented, constantly false. -/
def isLost (b : Board) : Bool := false

/-- Source `children.sort()`: Python's stable ascending sort under `__lt__`, which
compares priorities; rendered as a stable insertion sort on `priority ≤`
(any two stable ascending sorts under the same key agree). -/
def sortChildren (l : List Board) : List Board :=
  l.insertionSort fun a b => a.priority ≤ b.priority

/-- The mutable solver state threaded through `Calculation.dfs`:
`next_threshold` (a float, possibly `inf`, hence `WithTop ℚ`) and — for the
analysis — the log of boards `dfs` was invoked on (each invocation expands
the board by generating its children). -/
structure IdaState where
  nextThreshold : WithTop ℚ
  log : List Board

/-- The `for child in children` loop of `Calculation.dfs`: a winning child
returns `(False, child)`; a lost child breaks the loop (never happens,
`is_lost` is constantly false); a child within the threshold is searched
recursively through `next`; otherwise the child may lower `next_threshold`.
Returns Python's `(not_winning, board)` pair with the final state. -/
def dfsChildrenAux (next : Board → IdaState → (Bool × Option Board) × IdaState) :
    WithTop ℚ → List Board → IdaState → (Bool × Option Board) × IdaState
  | _, [], s => ((true, none), s)
  | thr, c :: cs, s =>
    if isWinning c = true then ((false, some c), s)
    else if isLost c = true then ((true, none), s)
    else if ((c.priority : WithTop ℚ)) ≤ thr then
      match next c s with
      | ((false, w), s') => ((false, w), s')
      | ((true, _), s') => dfsChildrenAux next thr cs s'
    else if ((c.priority : WithTop ℚ)) < s.nextThreshold then
      dfsChildrenAux next thr cs { s with nextThreshold := (c.priority : WithTop ℚ) }
    else dfsChildrenAux next thr cs s

/-- Source `Calculation.dfs`, with fuel bounding the recursion depth (the Python
recursion is unbounded; runs out of fuel answer `(True, None)` like an
exhausted loop).  During `play_ida` the `self.played` set is never added
to, so child generation runs with an empty played set. -/
def dfsFuel (deck : List Nat) (thr : WithTop ℚ) :
    Nat → Board → IdaState → (Bool × Option Board) × IdaState
  | 0, _, s => ((true, none), s)
  | fuel + 1, b, s =>
    dfsChildrenAux (dfsFuel deck thr fuel) thr
      (sortChildren (children deck (fun _ => false) b))
      { s with log := s.log ++ [b] }

/-- The `while not_winning` outer loop of `Calculation.play_ida`: each pass
runs `dfs(root)` with `next_threshold` reset to infinity, then raises the
threshold to the pass's `next_threshold`.  The loop has no other exit: with
the fuel exhausted it has produced no answer (`none`), mirroring that the
Python loop simply keeps running. -/
def idaOuter (deck : List Nat) (root : Board) (dfsfuel : Nat) :
    WithTop ℚ → Nat → List Board → Option Board × List Board
  | _, 0, log => (none, log)
  | thr, n + 1, log =>
    match dfsFuel deck thr dfsfuel root { nextThreshold := ⊤, log := log } with
    | ((false, w), s') => (w, s'.log)
    | ((true, _), s') => idaOuter deck root dfsfuel s'.nextThreshold n s'.log

/-- Source `Calculation.play_ida`: threshold initialized to the root's priority;
returns the found board (never a no-solution value — the code has no such
return path) together with the expansion log. -/
def playIda (deck : List Nat) (c : Nat) (dfsfuel outerFuel : Nat) :
    Option Board × List Board :=
  idaOuter deck (initialBoard c) dfsfuel
    (((initialBoard c).priority : ℚ) : WithTop ℚ) outerFuel []

/-- Outcomes of the best-first loop: a winning board, `blocked` — the state
in which `boards.get()` waits forever on an empty `PriorityQueue` (the
`while boards:` test is always true, a queue object being truthy) — or fuel
exhaustion. -/
inductive BfsResult
  | win (b : Board)
  | blocked
  | outOfFuel
deriving DecidableEq

/-- Membership in `self.played`, a Python set keyed by the board's
`__hash__`/`__eq__`, i.e. by string-render equality `eqB`. -/
def playedMem (played : List Board) (b : Board) : Bool :=
  played.any fun x => eqB b x

/-- Source `boards.get()` on a non-empty queue: some element of minimal priority
(`__lt__` compares priorities; among equal priorities the heap's choice is
unspecified — the runs analysed below never tie). -/
def popMin : List Board → Option (Board × List Board)
  | [] => none
  | x :: xs =>
    let best := xs.foldl (fun acc y => if y.priority < acc.priority then y else acc) x
    some (best, (x :: xs).erase best)

/-- The children `play_bfs` enqueues from `board`: generated with the
current played set (which `ranked_wastes_short_term` also consults) and
filtered by `child not in self.played`. -/
def bfsEnqueues (deck : List Nat) (played : List Board) (b : Board) : List Board :=
  (children deck (fun x => playedMem played x) b).filter fun x => ! playedMem played x

/-- The `while boards:` loop of `Calculation.play_bfs`: pop a minimal
board, add it to `played`, return it if winning, otherwise enqueue its
unplayed children and continue.  An empty queue blocks in `get()`. -/
def bfsLoop (deck : List Nat) : Nat → List Board → List Board → BfsResult
  | 0, _, _ => .outOfFuel
  | fuel + 1, queue, played =>
    match popMin queue with
    | none => .blocked
    | some (b, rest) =>
      let played' := played ++ [b]
      if isWinning b = true then .win b
      else bfsLoop deck fuel (rest ++ bfsEnqueues deck played' b) played'

/-- Source `Calculation.play_bfs` from the initial board. -/
def playBfs (deck : List Nat) (c : Nat) (fuel : Nat) : BfsResult :=
  bfsLoop deck fuel [initialBoard c] []

/-- The deck `Calculation.random_deck(1)` produces for `cards_per_suit = 1`:
four Kings, all four counted as the pre-drawn base cards.  The initial
board has no legal move: the deck is exhausted (`last_used = 3 = len-1`)
and every waste pile is empty — an unsolvable deal. -/
def deck4 : List Nat := [0, 0, 0, 0]

theorem children_initial_one (played : Board → Bool) :
    children deck4 played (initialBoard 1) = [] := by
  unfold children
  rw [if_neg (by decide : ¬ ((initialBoard 1).lastUsed < deck4.length - 1))]
  decide

theorem dfsFuel_one (thr : WithTop ℚ) (f : Nat) (s : IdaState) :
    dfsFuel deck4 thr (f + 1) (initialBoard 1) s
      = ((true, none), { s with log := s.log ++ [initialBoard 1] }) := by
  simp [dfsFuel, children_initial_one, sortChildren, dfsChildrenAux]

theorem dfsFuel_one_fst (thr : WithTop ℚ) (f : Nat) (s : IdaState) :
    (dfsFuel deck4 thr f (initialBoard 1) s).1 = (true, none) := by
  cases f with
  | zero => rfl
  | succ f => rw [dfsFuel_one]

theorem idaOuter_one_none (d : Nat) :
    ∀ (n : Nat) (thr : WithTop ℚ) (log : List Board),
      (idaOuter deck4 (initialBoard 1) d thr n log).1 = none := by
  intro n
  induction n with
  | zero => intro thr log; rfl
  | succ n ih =>
    intro thr log
    rw [idaOuter]
    have h := dfsFuel_one_fst thr d { nextThreshold := ⊤, log := log }
    rcases hs : dfsFuel deck4 thr d (initialBoard 1) { nextThreshold := ⊤, log := log }
      with ⟨⟨flag, w⟩, s'⟩
    rw [hs] at h
    simp only [Prod.mk.injEq] at h
    rw [h.1, h.2]
    exact ih _ _

theorem bfsLoop_one_empty (p : List Board) (n : Nat) :
    bfsLoop deck4 (n + 1) [] p = BfsResult.blocked := by
  rw [bfsLoop]
  rfl

theorem bfsEnqueues_one (played : List Board) :
    bfsEnqueues deck4 played (initialBoard 1) = [] := by
  unfold bfsEnqueues
  rw [children_initial_one]
  rfl

/-- Claim C6 fails on the code: on the unsolvable `cards_per_suit = 1` deal
`[0,0,0,0]` (no legal move exists and the initial board is not winning, so
no move sequence wins), `play_ida`'s outer loop runs forever without
producing any outcome — for every recursion depth and any number of outer
passes it has returned nothing — and `play_bfs` reaches the state where
`boards.get()` blocks forever on the emptied frontier; neither solver has a
`NoSolution` return path. -/
theorem c6_no_noSolution :
    (∀ dfsfuel outerFuel : Nat, (playIda deck4 1 dfsfuel outerFuel).1 = none)
    ∧ (∀ n : Nat, playBfs deck4 1 (n + 2) = BfsResult.blocked)
    ∧ (∀ b : Board,
        Relation.ReflTransGen (StepGen deck4) (initialBoard 1) b →
          isWinning b = false) := by
  refine ⟨fun d n => idaOuter_one_none d n _ _, fun n => ?_, fun b h => ?_⟩
  · unfold playBfs
    have hpop : popMin [initialBoard 1] = some (initialBoard 1, []) := by decide
    have hwin : isWinning (initialBoard 1) = false := by decide
    have h1 : bfsLoop deck4 (n + 2) [initialBoard 1] []
        = bfsLoop deck4 (n + 1) [] [initialBoard 1] := by
      rw [bfsLoop, hpop]
      simp [hwin, bfsEnqueues_one]
    rw [h1, bfsLoop_one_empty]
  · have hnostep : ∀ b', ¬ StepGen deck4 (initialBoard 1) b' := by
      rintro b' ⟨played, hm⟩
      rw [children_initial_one] at hm
      exact absurd hm (List.not_mem_nil _)
    rcases Relation.ReflTransGen.cases_head h with he | ⟨c', hc', -⟩
    · rw [← he]
      decide
    · exact absurd hc' (hnostep c')

theorem c6_no_noSolution_witness :
    ((playIda deck4 1 1 1).1 = none
      ∧ playBfs deck4 1 2 = BfsResult.blocked
      ∧ Relation.ReflTransGen (StepGen deck4) (initialBoard 1) (initialBoard 1))
    ∧ isWinning (initialBoard 1) = false :=
  ⟨⟨c6_no_noSolution.1 1 1, c6_no_noSolution.2.1 0, Relation.ReflTransGen.refl⟩,
    c6_no_noSolution.2.2 (initialBoard 1) Relation.ReflTransGen.refl⟩

/-- Claim C8 fails as stated: in the `play_ida` run on the
`cards_per_suit = 1` deal, after two outer passes the expansion log is
`[root, root]` — the same canonical form is expanded once per threshold
pass, not at most once per solver run. -/
theorem c8_counterexample :
    (playIda deck4 1 1 2).2 = [initialBoard 1, initialBoard 1]
      ∧ ¬ ((playIda deck4 1 1 2).2.Nodup) := by
  have h : (playIda deck4 1 1 2).2 = [initialBoard 1, initialBoard 1] := by decide
  refine ⟨h, ?_⟩
  rw [h]
  decide

/-- Claim C8 as amended: the best-first solver does consult the visited set
before enqueuing — every child it enqueues fails the played-membership test
at that moment — but the iterative-deepening solver records nothing as
visited and re-expands canonical forms across threshold passes: on the
unsolvable `cards_per_suit = 1` deal its expansion log after `n` outer
passes is the root repeated `n` times. -/
theorem c8_amended :
    (∀ (deck : List Nat) (played : List Board) (b c' : Board),
        c' ∈ bfsEnqueues deck played b → playedMem played c' = false)
    ∧ (∀ d n : Nat,
        (playIda deck4 1 (d + 1) n).2 = List.replicate n (initialBoard 1)) := by
  constructor
  · intro deck played b c' h
    unfold bfsEnqueues at h
    have h2 := List.of_mem_filter h
    simpa using h2
  · intro d n
    unfold playIda
    have main : ∀ (n : Nat) (thr : WithTop ℚ) (log : List Board),
        (idaOuter deck4 (initialBoard 1) (d + 1) thr n log).2
          = log ++ List.replicate n (initialBoard 1) := by
      intro n
      induction n with
      | zero => intro thr log; simp [idaOuter]
      | succ n ih =>
        intro thr log
        rw [idaOuter, dfsFuel_one]
        rw [ih]
        simp [List.replicate_succ]
    rw [main]
    simp

theorem c8_amended_witness :
    ((initialBoard 5).playDrawn 2 0 ∈ bfsEnqueues deck20 [] (initialBoard 5))
    ∧ playedMem [] ((initialBoard 5).playDrawn 2 0) = false
    ∧ (playIda deck4 1 1 2).2 = List.replicate 2 (initialBoard 1) :=
  ⟨by decide,
    c8_amended.1 deck20 [] (initialBoard 5) ((initialBoard 5).playDrawn 2 0) (by decide),
    c8_amended.2 0 2⟩

end Calculation
